import Mathlib

/-!
Verification development for the trending-subreddit blender
(scripts/gen_trending_subriff.py): a shallow embedding of the script's
data model, aggregation loop, composite scorer and two-phase selector,
together with theorems checking the specification's claims about it.

Numbers: the script's growth percentages and scores are Python floats used
only through `+ - * /`, `min`, `max` and comparisons; they are embedded as
rationals (`ℚ`).  Python's builtin `min`/`max` are embedded as the
conditional functions `qmin`/`qmax` (proved equal to Mathlib's `min`/`max`
below).  Python's stable `sorted(..., reverse=True)` with a numeric key is
embedded as `List.mergeSort` with the reflexive descending comparison on
the key, which is the same stable sort.
-/

unseal List.merge List.mergeSort

/-! ## Constants of the script -/

def SIZE_FILTERS : List String := ["medium-small", "medium", "large", "xlarge"]

def SORT_PERIODS : List String := ["daily", "weekly"]

def RESULTS_PER_QUERY : Nat := 20

def TOP_PER_SIZE_CATEGORY : Nat := 5

def FINAL_OUTPUT_LIMIT : Nat := 30

/-! ## Data model -/

/-- A raw JSON record of the API response, with the fields the script
reads.  `dailyGrowthPercentage`/`weeklyGrowthPercentage` are `Option ℚ`:
`none` stands for an absent (or JSON-null) field, so that the script's
`sub.get("dailyGrowthPercentage", 0) or 0` is `(·.getD 0)` (an absent,
null or zero value all collapse to `0`). -/
structure Record where
  displayName : String := ""
  subscribers : Int := 0
  dailyGrowthPercentage : Option ℚ := none
  weeklyGrowthPercentage : Option ℚ := none
  isNsfw : Bool := false
  internal_IsNsfw : Bool := false
  suggested_Internal_IsNsfw : Bool := false
deriving DecidableEq

/-- The script's `SubredditScore` dataclass (one aggregated entry per
unique subreddit name). -/
structure SubredditScore where
  name : String
  subscribers : Int := 0
  daily_growth_pct : ℚ := 0
  weekly_growth_pct : ℚ := 0
  daily_rank : Option Nat := none
  weekly_rank : Option Nat := none
  size_filter : String := ""
  appearances : Nat := 0
  composite_score : ℚ := 0
deriving DecidableEq

/-- The ways `fetch_subreddits` can raise: a network/HTTP failure (from
`requests.get` / `raise_for_status`) or an error arising outside the HTTP
call itself, such as a JSON parsing failure in `response.json()`.  Both are
Python `Exception`s raised inside the `try` block of the query loop. -/
inductive FetchError where
  | httpError : FetchError
  | jsonError : FetchError
deriving DecidableEq

/-- The outcome of one `fetch_subreddits(size_filter, sort_by)` call. -/
abbrev FetchResult := Except FetchError (List Record)

/-- The external collaborator: one fetch outcome per (size filter, sort
period) pair.  The whole run is a pure function of this. -/
abbrev Fetcher := String → String → FetchResult

/-! ## Python `min` / `max` on rationals -/

/-- Python's builtin `min a b` (returns `a` on ties). -/
def qmin (a b : ℚ) : ℚ := if b < a then b else a

/-- Python's builtin `max a b` (returns `a` on ties). -/
def qmax (a b : ℚ) : ℚ := if a < b then b else a

theorem qmin_eq_min (a b : ℚ) : qmin a b = min a b := by
  unfold qmin
  rw [min_def]
  split_ifs with h1 h2 h2 <;> first | rfl | linarith

theorem qmax_eq_max (a b : ℚ) : qmax a b = max a b := by
  unfold qmax
  rw [max_def]
  split_ifs with h1 h2 h2 <;> first | rfl | linarith

/-! ## Scorer: `calculate_composite_score` -/

/-- Direct translation of `calculate_composite_score`: position score per
period (when a rank is present), the multi-appearance bonus, and the two
capped growth contributions. -/
def calculate_composite_score (sub : SubredditScore) : ℚ :=
  let score : ℚ := 0
  let score := score + (match sub.daily_rank with
    | some r => qmax 0 ((RESULTS_PER_QUERY : ℚ) - (r : ℚ))
    | none => 0)
  let score := score + (match sub.weekly_rank with
    | some r => qmax 0 ((RESULTS_PER_QUERY : ℚ) - (r : ℚ))
    | none => 0)
  let score := if 2 ≤ sub.appearances then score + 15 * ((sub.appearances : ℚ) - 1) else score
  let daily_contrib := qmin sub.daily_growth_pct 100 / 10
  let weekly_contrib := qmin sub.weekly_growth_pct 500 / 50
  score + daily_contrib + weekly_contrib

/-! ## Aggregator state

`subreddit_data` is a Python dict keyed by name; dicts preserve insertion
order (which the phase-2 stable sort observes), so it is embedded as an
association list in insertion order.  `by_size_category` is a
`defaultdict(list)`, embedded as a total function defaulting to `[]`. -/

/-- Lookup in the insertion-ordered association list (first match). -/
def findEntry : List (String × SubredditScore) → String → Option SubredditScore
  | [], _ => none
  | p :: rest, n => if p.1 = n then some p.2 else findEntry rest n

/-- In-place mutation of the entry stored under a key (first match),
keeping insertion order. -/
def updateEntry (f : SubredditScore → SubredditScore) :
    List (String × SubredditScore) → String → List (String × SubredditScore)
  | [], _ => []
  | p :: rest, n => if p.1 = n then (p.1, f p.2) :: rest else p :: updateEntry f rest n

/-- The aggregation state: the `subreddit_data` dict and the
`by_size_category` index. -/
structure AggState where
  data : List (String × SubredditScore)
  bySize : String → List String

def initState : AggState := { data := [], bySize := fun _ => [] }

/-- The entry created on first sighting (`SubredditScore(name=..., ...)`):
initial growth values from this record, `size_filter` from the current
query; `appearances` starts at 0 and ranks absent (the dataclass
defaults). -/
def newEntry (size_filter : String) (r : Record) : SubredditScore :=
  { name := r.displayName
    subscribers := r.subscribers
    daily_growth_pct := r.dailyGrowthPercentage.getD 0
    weekly_growth_pct := r.weeklyGrowthPercentage.getD 0
    size_filter := size_filter }

/-- Rank update for the current sort period: set the zero-based index when
no rank is recorded for that period or the new index is smaller.  Any
`sort_by` other than `"daily"` falls into the weekly branch, as in the
script's `else` clause. -/
def updateRank (sort_by : String) (rank : Nat) (e : SubredditScore) : SubredditScore :=
  if sort_by = "daily" then
    match e.daily_rank with
    | none => { e with daily_rank := some rank }
    | some old => if rank < old then { e with daily_rank := some rank } else e
  else
    match e.weekly_rank with
    | none => { e with weekly_rank := some rank }
    | some old => if rank < old then { e with weekly_rank := some rank } else e

/-- Growth update: both growth fields become the max of the current value
and the record's value (absent/falsy treated as 0). -/
def updateGrowth (r : Record) (e : SubredditScore) : SubredditScore :=
  { e with
    daily_growth_pct := qmax e.daily_growth_pct (r.dailyGrowthPercentage.getD 0)
    weekly_growth_pct := qmax e.weekly_growth_pct (r.weeklyGrowthPercentage.getD 0) }

/-- The three mutations done on every qualifying sighting, in the script's
order: `appearances += 1`, the rank update, the growth update. -/
def updateSub (sort_by : String) (rank : Nat) (r : Record) (e : SubredditScore) : SubredditScore :=
  updateGrowth r (updateRank sort_by rank { e with appearances := e.appearances + 1 })

/-- Whether the loop body skips this record: empty/missing `displayName`,
or any of the three NSFW flags truthy. -/
def nsfwFlagged (r : Record) : Bool :=
  r.isNsfw || r.internal_IsNsfw || r.suggested_Internal_IsNsfw

/-- One iteration of `for rank, sub in enumerate(results)`. -/
def processRecord (size_filter sort_by : String) (st : AggState) (rank : Nat)
    (r : Record) : AggState :=
  let name := r.displayName
  if name = "" then st
  else if nsfwFlagged r then st
  else
    let st1 :=
      match findEntry st.data name with
      | some _ => st
      | none =>
        { data := st.data ++ [(name, newEntry size_filter r)]
          bySize := fun s => if s = size_filter then st.bySize s ++ [name] else st.bySize s }
    { st1 with data := updateEntry (updateSub sort_by rank r) st1.data name }

/-- The whole `for rank, sub in enumerate(results)` loop. -/
def processResults (size_filter sort_by : String) :
    AggState → Nat → List Record → AggState
  | st, _, [] => st
  | st, rank, r :: rs =>
    processResults size_filter sort_by (processRecord size_filter sort_by st rank r) (rank + 1) rs

/-- The (size filter, sort period) pairs in the script's nested loop
order. -/
def queryPairs : List (String × String) :=
  SIZE_FILTERS.flatMap (fun sf => SORT_PERIODS.map (fun sb => (sf, sb)))

/-- One iteration of the query loop: `except Exception: continue` — ANY
error raised by `fetch_subreddits` (network/HTTP or otherwise) skips the
query's contribution. -/
def runQuery (fetch : Fetcher) (st : AggState) (q : String × String) : AggState :=
  match fetch q.1 q.2 with
  | .error _ => st
  | .ok results => processResults q.1 q.2 st 0 results

/-- The full aggregation over all 8 queries. -/
def runQueries (fetch : Fetcher) : AggState :=
  queryPairs.foldl (runQuery fetch) initState

/-! ## Scoring pass and selector -/

/-- The pass `for entry in subreddit_data.values(): entry.composite_score = ...`. -/
def scoreAll (d : List (String × SubredditScore)) : List (String × SubredditScore) :=
  d.map (fun p => (p.1, { p.2 with composite_score := calculate_composite_score p.2 }))

/-- `subreddit_data[n].composite_score` (0 if the name is no key; in the
script every name this is applied to is a key). -/
def scoreOf (d : List (String × SubredditScore)) (n : String) : ℚ :=
  match findEntry d n with
  | some e => e.composite_score
  | none => 0

/-- `sorted(category_subs, key=..., reverse=True)`: stable descending sort
of one category's name list by composite score. -/
def catSorted (st : AggState) (size_filter : String) : List String :=
  (st.bySize size_filter).mergeSort (fun a b => decide (scoreOf st.data b ≤ scoreOf st.data a))

/-- `sorted_category[:TOP_PER_SIZE_CATEGORY]`. -/
def takeCat (st : AggState) (size_filter : String) : List String :=
  (catSorted st size_filter).take TOP_PER_SIZE_CATEGORY

/-- The inner phase-1 loop: add each name not already selected to the
selected set and append `(name, score)` to the output list. -/
def selectFrom (d : List (String × SubredditScore)) :
    List String → List String × List (String × ℚ) → List String × List (String × ℚ)
  | [], acc => acc
  | n :: rest, acc =>
    if n ∈ acc.1 then selectFrom d rest acc
    else selectFrom d rest (n :: acc.1, acc.2 ++ [(n, scoreOf d n)])

/-- Phase 1 over a list of size categories. -/
def phase1Cats (st : AggState) :
    List String → List String × List (String × ℚ) → List String × List (String × ℚ)
  | [], acc => acc
  | sf :: rest, acc => phase1Cats st rest (selectFrom st.data (takeCat st sf) acc)

/-- Phase 1: top `TOP_PER_SIZE_CATEGORY` per size category, in
`SIZE_FILTERS` order, starting from an empty selected set and output
list. -/
def phase1 (st : AggState) : List String × List (String × ℚ) :=
  phase1Cats st SIZE_FILTERS ([], [])

/-- `sorted(subreddit_data.values(), key=..., reverse=True)`: all entries,
stable descending by composite score (values in insertion order). -/
def allSorted (st : AggState) : List SubredditScore :=
  (st.data.map Prod.snd).mergeSort (fun a b => decide (b.composite_score ≤ a.composite_score))

/-- The phase-2 fill loop: append entries not yet selected until the list
reaches `FINAL_OUTPUT_LIMIT` (the `break`) or the pool is exhausted. -/
def fillLoop : List SubredditScore → List String → List (String × ℚ) → List (String × ℚ)
  | [], _, fl => fl
  | e :: rest, sel, fl =>
    if e.name ∈ sel then fillLoop rest sel fl
    else
      let fl2 := fl ++ [(e.name, e.composite_score)]
      if FINAL_OUTPUT_LIMIT ≤ fl2.length then fl2
      else fillLoop rest (e.name :: sel) fl2

/-- The aggregation state after scoring (`composite_score` filled in;
the category index is untouched). -/
def scoredState (fetch : Fetcher) : AggState :=
  { data := scoreAll (runQueries fetch).data, bySize := (runQueries fetch).bySize }

/-- The `final_list` of (name, score) pairs after both phases, before the
final re-sort. -/
def finalPairs (fetch : Fetcher) : List (String × ℚ) :=
  let st := scoredState fetch
  let p := phase1 st
  if p.2.length < FINAL_OUTPUT_LIMIT then fillLoop (allSorted st) p.1 p.2 else p.2

/-- `generate_blended_trending()`: aggregate, score, select in two phases,
re-sort the whole list descending by score, return the names. -/
def generate_blended_trending (fetch : Fetcher) : List String :=
  (((finalPairs fetch).mergeSort (fun a b => decide (b.2 ≤ a.2))).map Prod.fst)

/-! ## Observed qualifying sightings (for counting claims) -/

/-- A record the loop body does not skip: non-empty name, no NSFW flag. -/
def qualifies (r : Record) : Bool :=
  !(r.displayName = "") && !(nsfwFlagged r)

/-- The records of one query, or `[]` when its fetch raised. -/
def okRecords (fetch : Fetcher) (q : String × String) : List Record :=
  match fetch q.1 q.2 with
  | .error _ => []
  | .ok results => results

/-- Every qualifying sighting's name, across all successful queries in
order (duplicates kept). -/
def qualifyingNames (fetch : Fetcher) : List String :=
  queryPairs.flatMap (fun q => ((okRecords fetch q).filter qualifies).map Record.displayName)

/-! ## Derived predicates and variants used by the claims -/

/-- Rank evolution in one update: `none` can become anything, a present
rank can only stay or shrink (never become absent). -/
def rankImproved (old new : Option Nat) : Prop :=
  match old, new with
  | none, _ => True
  | some r, some r2 => r2 ≤ r
  | some _, none => False

/-- The rank field of the non-current sort period (the script's `else`
branch treats every `sort_by` other than `"daily"` as weekly). -/
def offPeriodRankUnchanged (sort_by : String) (e e2 : SubredditScore) : Prop :=
  if sort_by = "daily" then e2.weekly_rank = e.weekly_rank else e2.daily_rank = e.daily_rank

/-- The `appearances` field recorded under a name (0 when absent). -/
def appOf (d : List (String × SubredditScore)) (n : String) : Nat :=
  match findEntry d n with
  | some e => e.appearances
  | none => 0

/-- How many of `names` have an aggregated entry whose `size_filter` is
`sf`. -/
def countCat (d : List (String × SubredditScore)) (sf : String) (names : List String) : Nat :=
  (names.filter (fun n =>
    match findEntry d n with
    | some e => decide (e.size_filter = sf)
    | none => false)).length

/-- The phase-1 inner loop with the `name not in selected` guard removed:
every name is selected and appended unconditionally. -/
def selectAllFrom (d : List (String × SubredditScore)) :
    List String → List String × List (String × ℚ) → List String × List (String × ℚ)
  | [], acc => acc
  | n :: rest, acc => selectAllFrom d rest (n :: acc.1, acc.2 ++ [(n, scoreOf d n)])

/-- Phase 1 with the guard removed, over a list of size categories. -/
def phase1CatsAll (st : AggState) :
    List String → List String × List (String × ℚ) → List String × List (String × ℚ)
  | [], acc => acc
  | sf :: rest, acc => phase1CatsAll st rest (selectAllFrom st.data (takeCat st sf) acc)

/-- Phase 1 with the guard removed. -/
def phase1All (st : AggState) : List String × List (String × ℚ) :=
  phase1CatsAll st SIZE_FILTERS ([], [])

/-- A fetcher in which every failed query is replaced by a successful
empty result. -/
def errorsToEmpty (fetch : Fetcher) : Fetcher := fun sf sb =>
  match fetch sf sb with
  | .error _ => .ok []
  | .ok results => .ok results

/-- Modelled from the spec: the claimed error handling, in which the query
loop catches ONLY network/HTTP failures (treating them as "no results for
this query") while any other error raised inside a fetch operation — e.g.
a JSON parsing error in the response body — propagates and aborts the
run.  This is the behaviour claimed by the spec's error-handling section,
stated as an `Except`-valued run; the script itself (`except Exception`)
is `runQueries` above. -/
def runQueriesSpecHttpOnly (fetch : Fetcher) : Except FetchError AggState :=
  queryPairs.foldl (fun acc q =>
    match acc with
    | .error e => .error e
    | .ok st =>
      match fetch q.1 q.2 with
      | .error FetchError.httpError => .ok st
      | .error e => .error e
      | .ok results => .ok (processResults q.1 q.2 st 0 results)) (.ok initState)

/-- Modelled from the spec: `generate_blended_trending` as the spec's
error-handling section describes it — identical scoring and selection,
but with a fetch-time error other than a network/HTTP failure aborting the
whole run (see `runQueriesSpecHttpOnly`). -/
def generate_blended_trending_specHttpOnly (fetch : Fetcher) : Except FetchError (List String) :=
  match runQueriesSpecHttpOnly fetch with
  | .error e => .error e
  | .ok st0 =>
    let st : AggState := { data := scoreAll st0.data, bySize := st0.bySize }
    let p := phase1 st
    let fl2 := if p.2.length < FINAL_OUTPUT_LIMIT then fillLoop (allSorted st) p.1 p.2 else p.2
    .ok ((fl2.mergeSort (fun a b => decide (b.2 ≤ a.2))).map Prod.fst)

/-- The aggregation invariant maintained by the query loop: the dict's
keys are distinct, every entry's `name` equals its key and its
`appearances` is positive, and each category list holds exactly the names
whose entry was created under that size filter, without duplicates. -/
structure AggInv (st : AggState) : Prop where
  nodupKeys : (st.data.map Prod.fst).Nodup
  nameEq : ∀ p ∈ st.data, p.2.name = p.1
  appPos : ∀ p ∈ st.data, 1 ≤ p.2.appearances
  bySizeMem : ∀ sf n, n ∈ st.bySize sf ↔
    ∃ e, findEntry st.data n = some e ∧ e.size_filter = sf
  bySizeNodup : ∀ sf, (st.bySize sf).Nodup

/-! ## Concrete fixtures used by the witnesses and counterexamples -/

/-- An NSFW-flagged record with otherwise meaningful fields. -/
def exNsfwRecord : Record :=
  { displayName := "spicy", subscribers := 5, dailyGrowthPercentage := some 50
    isNsfw := true }

/-- An aggregated entry for the name "a", as a state fixture. -/
def exEntryA : SubredditScore :=
  { name := "a", daily_rank := some 5, daily_growth_pct := 1, appearances := 1 }

/-- A one-entry aggregation state. -/
def exState : AggState :=
  { data := [("a", exEntryA)], bySize := fun s => if s = "medium" then ["a"] else [] }

/-- A record sighting the existing name "a" again. -/
def exRecordA : Record :=
  { displayName := "a", subscribers := 9, dailyGrowthPercentage := some 7
    weeklyGrowthPercentage := some 3 }

/-- A fetcher whose only successful query returns the name "a" twice
(plus "b" once); all other queries fail. -/
def exDupFetcher : Fetcher := fun sf sb =>
  if sf = "medium-small" ∧ sb = "daily" then
    .ok [{ displayName := "a" }, { displayName := "b" }, { displayName := "a" }]
  else .error .httpError

/-- A fetcher with one JSON-parsing failure, one successful query, and
HTTP failures otherwise. -/
def exJsonFetcher : Fetcher := fun sf sb =>
  if sf = "medium" ∧ sb = "daily" then .ok [{ displayName := "a" }]
  else if sf = "medium" ∧ sb = "weekly" then .error .jsonError
  else .error .httpError

/-- Five plain records with the given names. -/
def plainRecords (names : List String) : List Record :=
  names.map (fun n => { displayName := n })

/-- A fetcher giving every size category five distinct qualifying
subreddits (the same page for both sort periods). -/
def exFullFetcher : Fetcher := fun sf _ =>
  if sf = "medium-small" then .ok (plainRecords ["a1", "a2", "a3", "a4", "a5"])
  else if sf = "medium" then .ok (plainRecords ["b1", "b2", "b3", "b4", "b5"])
  else if sf = "large" then .ok (plainRecords ["c1", "c2", "c3", "c4", "c5"])
  else .ok (plainRecords ["d1", "d2", "d3", "d4", "d5"])


/-! ## Basic lemmas about the association list -/

theorem qualifies_iff (r : Record) :
    qualifies r = true ↔ (r.displayName ≠ "" ∧ nsfwFlagged r = false) := by
  simp [qualifies]

theorem findEntry_eq_none_iff (d : List (String × SubredditScore)) (n : String) :
    findEntry d n = none ↔ n ∉ d.map Prod.fst := by
  induction d with
  | nil => simp [findEntry]
  | cons p rest ih =>
    by_cases h : p.1 = n
    · simp [findEntry, h]
    · rw [show findEntry (p :: rest) n = findEntry rest n from by simp [findEntry, h], ih]
      simp [List.mem_cons, Ne.symm h]

theorem findEntry_some_mem {d : List (String × SubredditScore)} {n : String}
    {e : SubredditScore} (h : findEntry d n = some e) : (n, e) ∈ d := by
  induction d with
  | nil => simp [findEntry] at h
  | cons p rest ih =>
    by_cases hp : p.1 = n
    · simp only [findEntry, hp, if_pos] at h
      cases h
      rw [← hp]
      exact List.mem_cons_self _ _
    · simp only [findEntry, hp, if_neg, not_false_iff] at h
      exact List.mem_cons_of_mem _ (ih h)

theorem findEntry_of_mem_nodup {d : List (String × SubredditScore)} {n : String}
    {e : SubredditScore} (hd : (d.map Prod.fst).Nodup) (h : (n, e) ∈ d) :
    findEntry d n = some e := by
  induction d with
  | nil => simp at h
  | cons p rest ih =>
    simp only [List.map_cons, List.nodup_cons] at hd
    rcases List.mem_cons.mp h with h1 | h1
    · rw [← h1]
      simp [findEntry]
    · have hne : p.1 ≠ n := by
        intro he
        exact hd.1 (he ▸ (List.mem_map.mpr ⟨(n, e), h1, rfl⟩))
      simp [findEntry, hne, ih hd.2 h1]

theorem findEntry_append (d l : List (String × SubredditScore)) (n : String) :
    findEntry (d ++ l) n =
      match findEntry d n with
      | some e => some e
      | none => findEntry l n := by
  induction d with
  | nil => simp [findEntry]
  | cons p rest ih =>
    by_cases h : p.1 = n <;> simp [findEntry, h, ih]

theorem map_fst_updateEntry (f : SubredditScore → SubredditScore)
    (d : List (String × SubredditScore)) (n : String) :
    (updateEntry f d n).map Prod.fst = d.map Prod.fst := by
  induction d with
  | nil => rfl
  | cons p rest ih =>
    by_cases h : p.1 = n <;> simp [updateEntry, h, ih]

theorem findEntry_updateEntry_self (f : SubredditScore → SubredditScore)
    (d : List (String × SubredditScore)) (n : String) :
    findEntry (updateEntry f d n) n = (findEntry d n).map f := by
  induction d with
  | nil => rfl
  | cons p rest ih =>
    by_cases h : p.1 = n <;> simp [updateEntry, findEntry, h, ih]

theorem findEntry_updateEntry_ne (f : SubredditScore → SubredditScore)
    (d : List (String × SubredditScore)) {n m : String} (h : m ≠ n) :
    findEntry (updateEntry f d n) m = findEntry d m := by
  induction d with
  | nil => rfl
  | cons p rest ih =>
    by_cases hp : p.1 = n
    · have hne : n ≠ m := fun he => h he.symm
      simp [updateEntry, findEntry, hp, hne]
    · simp [updateEntry, findEntry, hp, ih]

theorem map_fst_scoreAll (d : List (String × SubredditScore)) :
    (scoreAll d).map Prod.fst = d.map Prod.fst := by
  simp [scoreAll]

theorem findEntry_scoreAll (d : List (String × SubredditScore)) (n : String) :
    findEntry (scoreAll d) n =
      (findEntry d n).map (fun e => { e with composite_score := calculate_composite_score e }) := by
  induction d with
  | nil => rfl
  | cons p rest ih =>
    by_cases h : p.1 = n <;> simp [scoreAll, findEntry, h] <;>
      simpa [scoreAll] using ih

/-! ## Field lemmas for the update functions -/

theorem updateRank_fields (sort_by : String) (rank : Nat) (e : SubredditScore) :
    (updateRank sort_by rank e).name = e.name ∧
    (updateRank sort_by rank e).subscribers = e.subscribers ∧
    (updateRank sort_by rank e).size_filter = e.size_filter ∧
    (updateRank sort_by rank e).appearances = e.appearances ∧
    (updateRank sort_by rank e).composite_score = e.composite_score ∧
    (updateRank sort_by rank e).daily_growth_pct = e.daily_growth_pct ∧
    (updateRank sort_by rank e).weekly_growth_pct = e.weekly_growth_pct := by
  unfold updateRank
  split_ifs <;> rcases e.daily_rank with _ | dr <;> rcases e.weekly_rank with _ | wr <;>
    simp <;> split_ifs <;> simp

theorem updateSub_name (sort_by : String) (rank : Nat) (r : Record) (e : SubredditScore) :
    (updateSub sort_by rank r e).name = e.name := by
  simp [updateSub, updateGrowth, (updateRank_fields sort_by rank _).1]

theorem updateSub_subscribers (sort_by : String) (rank : Nat) (r : Record) (e : SubredditScore) :
    (updateSub sort_by rank r e).subscribers = e.subscribers := by
  simp [updateSub, updateGrowth, (updateRank_fields sort_by rank _).2.1]

theorem updateSub_size_filter (sort_by : String) (rank : Nat) (r : Record) (e : SubredditScore) :
    (updateSub sort_by rank r e).size_filter = e.size_filter := by
  simp [updateSub, updateGrowth, (updateRank_fields sort_by rank _).2.2.1]

theorem updateSub_appearances (sort_by : String) (rank : Nat) (r : Record) (e : SubredditScore) :
    (updateSub sort_by rank r e).appearances = e.appearances + 1 := by
  simp [updateSub, updateGrowth, (updateRank_fields sort_by rank _).2.2.2.1]

theorem updateSub_composite_score (sort_by : String) (rank : Nat) (r : Record)
    (e : SubredditScore) :
    (updateSub sort_by rank r e).composite_score = e.composite_score := by
  simp [updateSub, updateGrowth, (updateRank_fields sort_by rank _).2.2.2.2.1]

theorem updateSub_daily_growth (sort_by : String) (rank : Nat) (r : Record)
    (e : SubredditScore) :
    (updateSub sort_by rank r e).daily_growth_pct =
      qmax e.daily_growth_pct (r.dailyGrowthPercentage.getD 0) := by
  simp [updateSub, updateGrowth, (updateRank_fields sort_by rank _).2.2.2.2.2.1]

theorem updateSub_weekly_growth (sort_by : String) (rank : Nat) (r : Record)
    (e : SubredditScore) :
    (updateSub sort_by rank r e).weekly_growth_pct =
      qmax e.weekly_growth_pct (r.weeklyGrowthPercentage.getD 0) := by
  simp [updateSub, updateGrowth, (updateRank_fields sort_by rank _).2.2.2.2.2.2]

theorem updateGrowth_daily_rank (r : Record) (e : SubredditScore) :
    (updateGrowth r e).daily_rank = e.daily_rank := rfl

theorem updateGrowth_weekly_rank (r : Record) (e : SubredditScore) :
    (updateGrowth r e).weekly_rank = e.weekly_rank := rfl

theorem updateSub_daily_rank (sort_by : String) (rank : Nat) (r : Record) (e : SubredditScore) :
    (updateSub sort_by rank r e).daily_rank =
      (updateRank sort_by rank { e with appearances := e.appearances + 1 }).daily_rank := rfl

theorem updateSub_weekly_rank (sort_by : String) (rank : Nat) (r : Record) (e : SubredditScore) :
    (updateSub sort_by rank r e).weekly_rank =
      (updateRank sort_by rank { e with appearances := e.appearances + 1 }).weekly_rank := rfl

theorem updateRank_weekly_of_daily (rank : Nat) (e : SubredditScore) :
    (updateRank "daily" rank e).weekly_rank = e.weekly_rank := by
  unfold updateRank
  rcases e.daily_rank with _ | dr <;> simp <;> split_ifs <;> simp

theorem updateRank_daily_of_other {sort_by : String} (h : sort_by ≠ "daily") (rank : Nat)
    (e : SubredditScore) : (updateRank sort_by rank e).daily_rank = e.daily_rank := by
  unfold updateRank
  rcases e.weekly_rank with _ | wr <;> simp [h] <;> split_ifs <;> simp


/-! ## Characterizing one loop iteration -/

theorem processRecord_skip {r : Record} (h : qualifies r = false)
    (size_filter sort_by : String) (st : AggState) (rank : Nat) :
    processRecord size_filter sort_by st rank r = st := by
  unfold processRecord
  by_cases h1 : r.displayName = ""
  · simp [h1]
  · cases hn : nsfwFlagged r with
    | false =>
      exfalso
      rw [qualifies] at h
      simp [h1, hn] at h
    | true => simp [h1, hn]

theorem data_processRecord_existing {r : Record} {st : AggState} {e : SubredditScore}
    (hq : qualifies r = true) (he : findEntry st.data r.displayName = some e)
    (size_filter sort_by : String) (rank : Nat) :
    (processRecord size_filter sort_by st rank r).data =
      updateEntry (updateSub sort_by rank r) st.data r.displayName := by
  rcases (qualifies_iff r).mp hq with ⟨hn, hf⟩
  unfold processRecord
  simp [hn, hf, he]

theorem data_processRecord_new {r : Record} {st : AggState}
    (hq : qualifies r = true) (he : findEntry st.data r.displayName = none)
    (size_filter sort_by : String) (rank : Nat) :
    (processRecord size_filter sort_by st rank r).data =
      updateEntry (updateSub sort_by rank r)
        (st.data ++ [(r.displayName, newEntry size_filter r)]) r.displayName := by
  rcases (qualifies_iff r).mp hq with ⟨hn, hf⟩
  unfold processRecord
  simp [hn, hf, he]

theorem bySize_processRecord_existing {r : Record} {st : AggState} {e : SubredditScore}
    (hq : qualifies r = true) (he : findEntry st.data r.displayName = some e)
    (size_filter sort_by : String) (rank : Nat) :
    (processRecord size_filter sort_by st rank r).bySize = st.bySize := by
  rcases (qualifies_iff r).mp hq with ⟨hn, hf⟩
  unfold processRecord
  simp [hn, hf, he]

theorem bySize_processRecord_new {r : Record} {st : AggState}
    (hq : qualifies r = true) (he : findEntry st.data r.displayName = none)
    (size_filter sort_by : String) (rank : Nat) :
    (processRecord size_filter sort_by st rank r).bySize = fun s =>
      if s = size_filter then st.bySize s ++ [r.displayName] else st.bySize s := by
  rcases (qualifies_iff r).mp hq with ⟨hn, hf⟩
  unfold processRecord
  simp [hn, hf, he]

theorem findEntry_processRecord_ne {r : Record} {n : String} (h : n ≠ r.displayName)
    (size_filter sort_by : String) (st : AggState) (rank : Nat) :
    findEntry (processRecord size_filter sort_by st rank r).data n = findEntry st.data n := by
  by_cases hq : qualifies r = true
  · rcases he : findEntry st.data r.displayName with _ | e
    · rw [data_processRecord_new hq he, findEntry_updateEntry_ne _ _ h, findEntry_append]
      have h2 : findEntry [(r.displayName, newEntry size_filter r)] n = none := by
        have h3 : ¬r.displayName = n := fun h3 => h h3.symm
        simp [findEntry, h3]
      rw [h2]
      rcases findEntry st.data n with _ | e2 <;> rfl
    · rw [data_processRecord_existing hq he, findEntry_updateEntry_ne _ _ h]
  · rw [processRecord_skip (by simpa using hq)]

theorem findEntry_processRecord_existing {r : Record} {st : AggState} {e : SubredditScore}
    (hq : qualifies r = true) (he : findEntry st.data r.displayName = some e)
    (size_filter sort_by : String) (rank : Nat) :
    findEntry (processRecord size_filter sort_by st rank r).data r.displayName =
      some (updateSub sort_by rank r e) := by
  rw [data_processRecord_existing hq he, findEntry_updateEntry_self, he]
  rfl

theorem findEntry_processRecord_new {r : Record} {st : AggState}
    (hq : qualifies r = true) (he : findEntry st.data r.displayName = none)
    (size_filter sort_by : String) (rank : Nat) :
    findEntry (processRecord size_filter sort_by st rank r).data r.displayName =
      some (updateSub sort_by rank r (newEntry size_filter r)) := by
  rw [data_processRecord_new hq he, findEntry_updateEntry_self, findEntry_append, he]
  simp [findEntry]

theorem map_fst_processRecord_existing {r : Record} {st : AggState} {e : SubredditScore}
    (hq : qualifies r = true) (he : findEntry st.data r.displayName = some e)
    (size_filter sort_by : String) (rank : Nat) :
    (processRecord size_filter sort_by st rank r).data.map Prod.fst =
      st.data.map Prod.fst := by
  rw [data_processRecord_existing hq he, map_fst_updateEntry]

theorem map_fst_processRecord_new {r : Record} {st : AggState}
    (hq : qualifies r = true) (he : findEntry st.data r.displayName = none)
    (size_filter sort_by : String) (rank : Nat) :
    (processRecord size_filter sort_by st rank r).data.map Prod.fst =
      st.data.map Prod.fst ++ [r.displayName] := by
  rw [data_processRecord_new hq he, map_fst_updateEntry]
  simp

/-! ## Rank-monotonicity helpers -/

theorem rankImproved_refl (o : Option Nat) : rankImproved o o := by
  cases o <;> simp [rankImproved]

theorem rankImproved_updateRank_daily (sort_by : String) (rank : Nat) (e : SubredditScore) :
    rankImproved e.daily_rank (updateRank sort_by rank e).daily_rank := by
  by_cases h : sort_by = "daily"
  · unfold updateRank
    rw [if_pos h]
    rcases hd : e.daily_rank with _ | old
    · simp [rankImproved]
    · simp only [hd]
      split_ifs with h2
      · simp only [rankImproved]
        omega
      · rw [hd]
        simp [rankImproved]
  · rw [updateRank_daily_of_other h]
    exact rankImproved_refl _

theorem updateRank_weekly_of_other {sort_by : String} (h : sort_by ≠ "daily") (rank : Nat)
    (e : SubredditScore) :
    (updateRank sort_by rank e).weekly_rank =
      match e.weekly_rank with
      | none => some rank
      | some old => if rank < old then some rank else e.weekly_rank := by
  unfold updateRank
  rw [if_neg h]
  rcases hw : e.weekly_rank with _ | old
  · simp
  · simp only []
    split_ifs with h2 <;> simp [hw]

theorem rankImproved_updateRank_weekly (sort_by : String) (rank : Nat) (e : SubredditScore) :
    rankImproved e.weekly_rank (updateRank sort_by rank e).weekly_rank := by
  by_cases h : sort_by = "daily"
  · rw [h, updateRank_weekly_of_daily]
    exact rankImproved_refl _
  · rw [updateRank_weekly_of_other h]
    rcases hw : e.weekly_rank with _ | old
    · simp [rankImproved]
    · simp only []
      split_ifs with h2
      · simp only [rankImproved]
        omega
      · simp [rankImproved]

/-! ## Claim theorems: scorer and single update step -/

/-- C2: the Scorer returns exactly the clamped-rank points plus the
multi-appearance bonus plus the capped growth contributions (growth is not
clamped below, only capped above); a record with both ranks 0, two
appearances and zero growth scores exactly 55, and a strongly negative
daily growth (here -1000 with daily rank 0 and one appearance) drags the
score down to -80, below the 20 points the rank alone would give. -/
theorem C2_composite_score_formula :
    (∀ s : SubredditScore,
      calculate_composite_score s =
        (s.daily_rank.elim 0 fun r => max 0 ((RESULTS_PER_QUERY : ℚ) - (r : ℚ))) +
        (s.weekly_rank.elim 0 fun r => max 0 ((RESULTS_PER_QUERY : ℚ) - (r : ℚ))) +
        (if 2 ≤ s.appearances then 15 * ((s.appearances : ℚ) - 1) else 0) +
        min s.daily_growth_pct 100 / 10 +
        min s.weekly_growth_pct 500 / 50) ∧
    calculate_composite_score
      { name := "s", daily_rank := some 0, weekly_rank := some 0, appearances := 2 } = 55 ∧
    calculate_composite_score
      { name := "t", daily_rank := some 0, appearances := 1, daily_growth_pct := -1000 } = -80 := by
  refine ⟨fun s => ?_, by with_unfolding_all decide, by with_unfolding_all decide⟩
  simp only [calculate_composite_score, qmin_eq_min, qmax_eq_max]
  rcases hd : s.daily_rank with _ | dr <;> rcases hw : s.weekly_rank with _ | wr <;>
    simp only [hd, hw, Option.elim] <;> split_ifs <;> ring

/-- C7: a record with any of the three NSFW flags truthy causes no
mutation at all — the loop iteration returns the aggregation state
unchanged (so the name joins no map or category list and no counter
moves), whatever the record's other fields. -/
theorem C7_nsfw_record_no_mutation {r : Record}
    (h : r.isNsfw = true ∨ r.internal_IsNsfw = true ∨ r.suggested_Internal_IsNsfw = true)
    (size_filter sort_by : String) (st : AggState) (rank : Nat) :
    processRecord size_filter sort_by st rank r = st := by
  apply processRecord_skip
  rcases h with h | h | h <;> simp [qualifies, nsfwFlagged, h]

/-- C7 witness: a concrete NSFW record leaves a concrete non-empty state
untouched. -/
theorem C7_nsfw_record_no_mutation_witness :
    processRecord "large" "weekly" exState 3 exNsfwRecord = exState :=
  C7_nsfw_record_no_mutation (Or.inl rfl) "large" "weekly" exState 3

/-- C6: one aggregation step never worsens an existing entry: present
ranks only stay or shrink, growth values only stay or grow, and on a
qualifying sighting of the entry's own name each growth field becomes
exactly the max of its current value and the record's value (absent or
falsy record values counting as 0). -/
theorem C6_update_step_monotone {r : Record} {st : AggState} {n : String}
    {e : SubredditScore} (h : findEntry st.data n = some e)
    (size_filter sort_by : String) (rank : Nat) :
    ∃ e2, findEntry (processRecord size_filter sort_by st rank r).data n = some e2 ∧
      rankImproved e.daily_rank e2.daily_rank ∧
      rankImproved e.weekly_rank e2.weekly_rank ∧
      e.daily_growth_pct ≤ e2.daily_growth_pct ∧
      e.weekly_growth_pct ≤ e2.weekly_growth_pct ∧
      (r.displayName = n → qualifies r = true →
        e2.daily_growth_pct = max e.daily_growth_pct (r.dailyGrowthPercentage.getD 0) ∧
        e2.weekly_growth_pct = max e.weekly_growth_pct (r.weeklyGrowthPercentage.getD 0)) := by
  by_cases hq : qualifies r = true
  · by_cases hn : r.displayName = n
    · subst hn
      refine ⟨updateSub sort_by rank r e, findEntry_processRecord_existing hq h _ _ _, ?_, ?_, ?_, ?_, ?_⟩
      · rw [updateSub_daily_rank]
        simpa using rankImproved_updateRank_daily sort_by rank
          { e with appearances := e.appearances + 1 }
      · rw [updateSub_weekly_rank]
        simpa using rankImproved_updateRank_weekly sort_by rank
          { e with appearances := e.appearances + 1 }
      · rw [updateSub_daily_growth, qmax_eq_max]
        exact le_max_left _ _
      · rw [updateSub_weekly_growth, qmax_eq_max]
        exact le_max_left _ _
      · intro _ _
        rw [updateSub_daily_growth, updateSub_weekly_growth, qmax_eq_max, qmax_eq_max]
        exact ⟨rfl, rfl⟩
    · refine ⟨e, ?_, rankImproved_refl _, rankImproved_refl _, le_refl _, le_refl _, ?_⟩
      · rw [findEntry_processRecord_ne (fun h2 => hn h2.symm), h]
      · intro h2
        exact absurd h2 hn
  · rw [processRecord_skip (by simpa using hq)]
    refine ⟨e, h, rankImproved_refl _, rankImproved_refl _, le_refl _, le_refl _, ?_⟩
    intro _ h2
    exact absurd h2 hq

/-- C6 witness: a concrete second sighting of "a" (record rank 2, daily
growth 7) improves the stored rank `some 5` to `some 2` and the growth
from 1 to 7, instantiating every monotonicity conjunct. -/
theorem C6_update_step_monotone_witness :
    ∃ e2, findEntry (processRecord "medium" "daily" exState 2 exRecordA).data "a" = some e2 ∧
      rankImproved exEntryA.daily_rank e2.daily_rank ∧
      rankImproved exEntryA.weekly_rank e2.weekly_rank ∧
      exEntryA.daily_growth_pct ≤ e2.daily_growth_pct ∧
      exEntryA.weekly_growth_pct ≤ e2.weekly_growth_pct ∧
      (exRecordA.displayName = "a" → qualifies exRecordA = true →
        e2.daily_growth_pct =
          max exEntryA.daily_growth_pct (exRecordA.dailyGrowthPercentage.getD 0) ∧
        e2.weekly_growth_pct =
          max exEntryA.weekly_growth_pct (exRecordA.weeklyGrowthPercentage.getD 0)) :=
  C6_update_step_monotone (show findEntry exState.data "a" = some exEntryA from rfl)
    "medium" "daily" 2

/-- C9: a sighting of an existing name can change only `appearances`, the
current sort period's rank and the growth fields: the entry's `name`,
`subscribers`, `size_filter` (and stored `composite_score`) keep the
values set at creation, and the other period's rank is untouched —
whatever size filter the new sighting arrives under. -/
theorem C9_update_step_frame {r : Record} {st : AggState} {n : String}
    {e e2 : SubredditScore} (h1 : findEntry st.data n = some e)
    (size_filter sort_by : String) (rank : Nat)
    (h2 : findEntry (processRecord size_filter sort_by st rank r).data n = some e2) :
    e2.name = e.name ∧ e2.subscribers = e.subscribers ∧ e2.size_filter = e.size_filter ∧
      e2.composite_score = e.composite_score ∧ offPeriodRankUnchanged sort_by e e2 := by
  by_cases hq : qualifies r = true
  · by_cases hn : r.displayName = n
    · subst hn
      rw [findEntry_processRecord_existing hq h1] at h2
      cases h2
      refine ⟨updateSub_name _ _ _ _, updateSub_subscribers _ _ _ _,
        updateSub_size_filter _ _ _ _, updateSub_composite_score _ _ _ _, ?_⟩
      unfold offPeriodRankUnchanged
      split_ifs with hd
      · subst hd
        rw [updateSub_weekly_rank, updateRank_weekly_of_daily]
      · rw [updateSub_daily_rank, updateRank_daily_of_other hd]
    · rw [findEntry_processRecord_ne (fun h3 => hn h3.symm), h1] at h2
      cases h2
      refine ⟨rfl, rfl, rfl, rfl, ?_⟩
      unfold offPeriodRankUnchanged
      split_ifs <;> rfl
  · rw [processRecord_skip (by simpa using hq)] at h2
    rw [h1] at h2
    cases h2
    refine ⟨rfl, rfl, rfl, rfl, ?_⟩
    unfold offPeriodRankUnchanged
    split_ifs <;> rfl

/-- C9 witness: the concrete second sighting of "a" under a different
size filter ("large", weekly) keeps name, subscribers, size filter and
stored score, and leaves the daily rank untouched. -/
theorem C9_update_step_frame_witness :
    (updateSub "weekly" 2 exRecordA exEntryA).name = exEntryA.name ∧
      (updateSub "weekly" 2 exRecordA exEntryA).subscribers = exEntryA.subscribers ∧
      (updateSub "weekly" 2 exRecordA exEntryA).size_filter = exEntryA.size_filter ∧
      (updateSub "weekly" 2 exRecordA exEntryA).composite_score = exEntryA.composite_score ∧
      offPeriodRankUnchanged "weekly" exEntryA (updateSub "weekly" 2 exRecordA exEntryA) :=
  C9_update_step_frame (show findEntry exState.data "a" = some exEntryA from rfl)
    "large" "weekly" 2
    (show findEntry (processRecord "large" "weekly" exState 2 exRecordA).data "a" =
      some (updateSub "weekly" 2 exRecordA exEntryA) from rfl)

/-! ## Counting appearances (C8) -/

theorem appOf_processRecord (size_filter sort_by : String) (st : AggState) (rank : Nat)
    (r : Record) (n : String) :
    appOf (processRecord size_filter sort_by st rank r).data n =
      appOf st.data n + (if r.displayName = n ∧ qualifies r = true then 1 else 0) := by
  by_cases hq : qualifies r = true
  · by_cases hn : r.displayName = n
    · subst hn
      rcases he : findEntry st.data r.displayName with _ | e
      · rw [appOf, findEntry_processRecord_new hq he]
        simp [appOf, he, hq, updateSub_appearances, newEntry]
      · rw [appOf, findEntry_processRecord_existing hq he]
        simp [appOf, he, hq, updateSub_appearances]
    · rw [appOf, findEntry_processRecord_ne (fun h2 => hn h2.symm), ← appOf]
      simp [hn]
  · rw [processRecord_skip (by simpa using hq)]
    simp [hq]

theorem appOf_processResults (size_filter sort_by : String) (n : String) :
    ∀ (rs : List Record) (st : AggState) (rank : Nat),
    appOf (processResults size_filter sort_by st rank rs).data n =
      appOf st.data n + ((rs.filter qualifies).map Record.displayName).count n := by
  intro rs
  induction rs with
  | nil => simp [processResults]
  | cons r rs ih =>
    intro st rank
    rw [processResults, ih, appOf_processRecord]
    by_cases hq : qualifies r = true
    · by_cases hn : r.displayName = n
      · simp [List.filter_cons, hq, hn, List.count_cons]
        omega
      · simp [List.filter_cons, hq, hn, List.count_cons]
    · simp [List.filter_cons, hq, Bool.of_not_eq_true hq]

theorem runQuery_eq_processResults (fetch : Fetcher) (st : AggState) (q : String × String) :
    runQuery fetch st q = processResults q.1 q.2 st 0 (okRecords fetch q) := by
  unfold runQuery okRecords
  rcases fetch q.1 q.2 with e | results <;> rfl

theorem appOf_foldl_queries (fetch : Fetcher) (n : String) :
    ∀ (qs : List (String × String)) (st : AggState),
    appOf ((qs.foldl (runQuery fetch) st)).data n =
      appOf st.data n +
        (qs.flatMap (fun q => ((okRecords fetch q).filter qualifies).map Record.displayName)).count n := by
  intro qs
  induction qs with
  | nil => simp
  | cons q qs ih =>
    intro st
    rw [List.foldl_cons, ih, runQuery_eq_processResults, appOf_processResults]
    simp [List.count_append]
    omega

theorem appOf_runQueries (fetch : Fetcher) (n : String) :
    appOf (runQueries fetch).data n = (qualifyingNames fetch).count n := by
  rw [runQueries, appOf_foldl_queries, qualifyingNames]
  simp [initState, appOf, findEntry]

/-- C8: after all queries, an aggregated entry's `appearances` equals the
number of qualifying sightings of its name across all successful query
result lists — every raw occurrence counted, including duplicates of the
name within one result page. -/
theorem C8_appearances_count_raw_sightings {fetch : Fetcher} {n : String}
    {e : SubredditScore} (h : findEntry (runQueries fetch).data n = some e) :
    e.appearances = (qualifyingNames fetch).count n := by
  have h2 := appOf_runQueries fetch n
  rw [appOf, h] at h2
  exact h2

/-- C8 witness: with one successful query returning ["a", "b", "a"], the
entry for "a" records 2 appearances, the count of its raw sightings. -/
theorem C8_appearances_count_raw_sightings_witness :
    (updateSub "daily" 2 { displayName := "a" }
        (updateSub "daily" 0 { displayName := "a" } (newEntry "medium-small" { displayName := "a" }))).appearances =
      (qualifyingNames exDupFetcher).count "a" :=
  C8_appearances_count_raw_sightings (by with_unfolding_all decide)

/-! ## The aggregation invariant -/

theorem mem_updateEntry_strong {f : SubredditScore → SubredditScore}
    {d : List (String × SubredditScore)} {n : String} {p : String × SubredditScore}
    (hp : p ∈ updateEntry f d n) :
    p ∈ d ∨ ∃ e, findEntry d n = some e ∧ p = (n, f e) := by
  induction d with
  | nil => simp [updateEntry] at hp
  | cons q rest ih =>
    by_cases hq : q.1 = n
    · rw [updateEntry, if_pos hq] at hp
      rcases List.mem_cons.mp hp with hp1 | hp1
      · right
        exact ⟨q.2, by simp [findEntry, hq], by rw [hp1, hq]⟩
      · exact Or.inl (List.mem_cons_of_mem _ hp1)
    · rw [updateEntry, if_neg hq] at hp
      rcases List.mem_cons.mp hp with hp1 | hp1
      · exact Or.inl (hp1 ▸ List.mem_cons_self _ _)
      · rcases ih hp1 with hp2 | ⟨e, he, hpe⟩
        · exact Or.inl (List.mem_cons_of_mem _ hp2)
        · exact Or.inr ⟨e, by simp [findEntry, hq, he], hpe⟩

theorem updateEntry_append_last {d : List (String × SubredditScore)} {n : String}
    (he : findEntry d n = none) (f : SubredditScore → SubredditScore) (v : SubredditScore) :
    updateEntry f (d ++ [(n, v)]) n = d ++ [(n, f v)] := by
  induction d with
  | nil => simp [updateEntry]
  | cons p rest ih =>
    have hp : ¬p.1 = n := by
      intro hp
      rw [findEntry, if_pos hp] at he
      exact Option.noConfusion he
    rw [findEntry, if_neg hp] at he
    simp [updateEntry, hp, ih he]

theorem data_processRecord_new2 {r : Record} {st : AggState}
    (hq : qualifies r = true) (he : findEntry st.data r.displayName = none)
    (size_filter sort_by : String) (rank : Nat) :
    (processRecord size_filter sort_by st rank r).data =
      st.data ++ [(r.displayName, updateSub sort_by rank r (newEntry size_filter r))] := by
  rw [data_processRecord_new hq he, updateEntry_append_last he]

theorem aggInv_init : AggInv initState := by
  constructor <;> simp [initState, findEntry]

theorem findEntry_append_single_ne {m n : String} (h : m ≠ n)
    (d : List (String × SubredditScore)) (v : SubredditScore) :
    findEntry (d ++ [(m, v)]) n = findEntry d n := by
  rw [findEntry_append]
  rcases hfe : findEntry d n with _ | e
  · simp [findEntry, h]
  · rfl

theorem aggInv_processRecord (size_filter sort_by : String) (st : AggState) (rank : Nat)
    (r : Record) (h : AggInv st) : AggInv (processRecord size_filter sort_by st rank r) := by
  by_cases hq : qualifies r = true
  · rcases he : findEntry st.data r.displayName with _ | e
    · -- first sighting: a fresh entry is appended and indexed
      have hdata := data_processRecord_new2 hq he size_filter sort_by rank
      have hby := bySize_processRecord_new hq he size_filter sort_by rank
      have hnotin : r.displayName ∉ st.data.map Prod.fst := (findEntry_eq_none_iff _ _).mp he
      have hsize : (updateSub sort_by rank r (newEntry size_filter r)).size_filter =
          size_filter := by
        rw [updateSub_size_filter]
        rfl
      have hnot : ∀ s, r.displayName ∉ st.bySize s := by
        intro s hs
        rcases (h.bySizeMem s r.displayName).mp hs with ⟨e2, he2, _⟩
        rw [he] at he2
        exact Option.noConfusion he2
      constructor
      · rw [map_fst_processRecord_new hq he, List.nodup_append]
        exact ⟨h.nodupKeys, List.nodup_singleton _, by simpa using hnotin⟩
      · intro p hp
        rw [hdata] at hp
        rcases List.mem_append.mp hp with hp1 | hp1
        · exact h.nameEq p hp1
        · rcases List.mem_singleton.mp hp1 with rfl
          rw [updateSub_name]
          rfl
      · intro p hp
        rw [hdata] at hp
        rcases List.mem_append.mp hp with hp1 | hp1
        · exact h.appPos p hp1
        · rcases List.mem_singleton.mp hp1 with rfl
          rw [updateSub_appearances]
          omega
      · intro sf n
        rw [hdata, hby]
        simp only []
        by_cases hn : n = r.displayName
        · subst hn
          rw [findEntry_append, he]
          by_cases hsf : sf = size_filter
          · rw [if_pos hsf]
            simp [findEntry, hsize, hsf]
          · rw [if_neg hsf]
            have hsf2 : ¬size_filter = sf := fun h2 => hsf h2.symm
            simp [findEntry, hsize, hsf2, hnot sf]
        · rw [findEntry_append_single_ne (fun h3 => hn h3.symm)]
          by_cases hsf : sf = size_filter
          · rw [if_pos hsf]
            rw [show (st.bySize sf ++ [r.displayName] : List String) =
              st.bySize sf ++ [r.displayName] from rfl]
            constructor
            · intro hmem
              rcases List.mem_append.mp hmem with hmem | hmem
              · exact (h.bySizeMem sf n).mp hmem
              · exact absurd (List.mem_singleton.mp hmem) hn
            · intro hex
              exact List.mem_append.mpr (Or.inl ((h.bySizeMem sf n).mpr hex))
          · rw [if_neg hsf]
            exact h.bySizeMem sf n
      · intro sf
        rw [hby]
        simp only []
        by_cases hsf : sf = size_filter
        · rw [if_pos hsf, List.nodup_append]
          exact ⟨h.bySizeNodup sf, List.nodup_singleton _, by simpa using hnot sf⟩
        · rw [if_neg hsf]
          exact h.bySizeNodup sf
    · -- repeat sighting: in-place update of the existing entry
      have hdata := data_processRecord_existing hq he size_filter sort_by rank
      have hby := bySize_processRecord_existing hq he size_filter sort_by rank
      constructor
      · rw [map_fst_processRecord_existing hq he]
        exact h.nodupKeys
      · intro p hp
        rw [hdata] at hp
        rcases mem_updateEntry_strong hp with hp1 | ⟨e2, he2, rfl⟩
        · exact h.nameEq p hp1
        · rw [updateSub_name]
          exact h.nameEq _ (findEntry_some_mem he2)
      · intro p hp
        rw [hdata] at hp
        rcases mem_updateEntry_strong hp with hp1 | ⟨e2, he2, rfl⟩
        · exact h.appPos p hp1
        · rw [updateSub_appearances]
          omega
      · intro sf n
        rw [hdata, hby]
        by_cases hn : n = r.displayName
        · subst hn
          rw [findEntry_updateEntry_self, he, h.bySizeMem sf r.displayName, he]
          simp [updateSub_size_filter]
        · rw [findEntry_updateEntry_ne _ _ hn]
          exact h.bySizeMem sf n
      · intro sf
        rw [hby]
        exact h.bySizeNodup sf
  · rw [processRecord_skip (by simpa using hq)]
    exact h

theorem aggInv_processResults (size_filter sort_by : String) :
    ∀ (rs : List Record) (st : AggState) (rank : Nat), AggInv st →
      AggInv (processResults size_filter sort_by st rank rs) := by
  intro rs
  induction rs with
  | nil =>
    intro st rank h
    exact h
  | cons r rs ih =>
    intro st rank h
    exact ih _ _ (aggInv_processRecord size_filter sort_by st rank r h)

theorem aggInv_foldl_queries (fetch : Fetcher) :
    ∀ (qs : List (String × String)) (st : AggState), AggInv st →
      AggInv (qs.foldl (runQuery fetch) st) := by
  intro qs
  induction qs with
  | nil =>
    intro st h
    exact h
  | cons q qs ih =>
    intro st h
    rw [List.foldl_cons, runQuery_eq_processResults]
    exact ih _ (aggInv_processResults q.1 q.2 _ st 0 h)

theorem aggInv_runQueries (fetch : Fetcher) : AggInv (runQueries fetch) :=
  aggInv_foldl_queries fetch queryPairs initState aggInv_init

theorem aggInv_scoredState (fetch : Fetcher) : AggInv (scoredState fetch) := by
  have h := aggInv_runQueries fetch
  constructor
  · rw [show (scoredState fetch).data = scoreAll (runQueries fetch).data from rfl,
      map_fst_scoreAll]
    exact h.nodupKeys
  · intro p hp
    rcases List.mem_map.mp hp with ⟨q, hq1, rfl⟩
    exact h.nameEq q hq1
  · intro p hp
    rcases List.mem_map.mp hp with ⟨q, hq1, rfl⟩
    exact h.appPos q hq1
  · intro sf n
    rw [show (scoredState fetch).bySize = (runQueries fetch).bySize from rfl,
      show (scoredState fetch).data = scoreAll (runQueries fetch).data from rfl,
      findEntry_scoreAll, h.bySizeMem sf n]
    rcases findEntry (runQueries fetch).data n with _ | e <;> simp
  · intro sf
    exact h.bySizeNodup sf

/-! ## Selector lemmas: phase 1 -/

theorem selectAllFrom_eq (d : List (String × SubredditScore)) :
    ∀ (ns sel : List String) (fl : List (String × ℚ)),
    selectAllFrom d ns (sel, fl) =
      (ns.reverse ++ sel, fl ++ ns.map (fun n => (n, scoreOf d n))) := by
  intro ns
  induction ns with
  | nil =>
    intro sel fl
    simp [selectAllFrom]
  | cons n rest ih =>
    intro sel fl
    rw [selectAllFrom, ih]
    simp

theorem selectFrom_eq_of_fresh (d : List (String × SubredditScore)) :
    ∀ (ns sel : List String) (fl : List (String × ℚ)),
    ns.Nodup → (∀ n ∈ ns, n ∉ sel) →
    selectFrom d ns (sel, fl) = selectAllFrom d ns (sel, fl) := by
  intro ns
  induction ns with
  | nil =>
    intro sel fl _ _
    rfl
  | cons n rest ih =>
    intro sel fl hnd hfresh
    rw [selectFrom, selectAllFrom]
    rw [show ((sel, fl) : List String × List (String × ℚ)).1 = sel from rfl]
    rw [if_neg (hfresh n (List.mem_cons_self _ _))]
    apply ih
    · exact (List.nodup_cons.mp hnd).2
    · intro m hm
      simp only [List.mem_cons]
      rintro (rfl | hm2)
      · exact (List.nodup_cons.mp hnd).1 hm
      · exact hfresh m (List.mem_cons_of_mem _ hm) hm2

theorem nodup_takeCat {st : AggState} {sf : String} (h : (st.bySize sf).Nodup) :
    (takeCat st sf).Nodup :=
  (((List.mergeSort_perm (st.bySize sf) _).nodup_iff).mpr h).sublist (List.take_sublist _ _)

theorem takeCat_subset {st : AggState} {sf : String} :
    ∀ n, n ∈ takeCat st sf → n ∈ st.bySize sf := by
  intro n hn
  have h2 := List.take_subset _ _ hn
  exact List.mem_mergeSort.mp h2

theorem phase1CatsAll_pairs (st : AggState) :
    ∀ (cats sel : List String) (fl : List (String × ℚ)),
    (phase1CatsAll st cats (sel, fl)).2 =
      fl ++ cats.flatMap (fun sf => (takeCat st sf).map (fun n => (n, scoreOf st.data n))) := by
  intro cats
  induction cats with
  | nil =>
    intro sel fl
    simp [phase1CatsAll]
  | cons sf rest ih =>
    intro sel fl
    rw [phase1CatsAll, selectAllFrom_eq, ih]
    simp [List.flatMap_cons]

theorem phase1Cats_eq_all (st : AggState) (hnd : ∀ sf, (st.bySize sf).Nodup)
    (hdisj : ∀ sf sf2, sf ≠ sf2 → ∀ n, n ∈ st.bySize sf → n ∉ st.bySize sf2) :
    ∀ (cats : List String), cats.Nodup →
    ∀ (sel : List String) (fl : List (String × ℚ)),
    (∀ n ∈ sel, ∀ sf ∈ cats, n ∉ st.bySize sf) →
    phase1Cats st cats (sel, fl) = phase1CatsAll st cats (sel, fl) := by
  intro cats
  induction cats with
  | nil =>
    intro _ sel fl _
    rfl
  | cons sf rest ih =>
    intro hcnd sel fl hsel
    have hfresh : ∀ n ∈ takeCat st sf, n ∉ sel := by
      intro n hn hn2
      exact hsel n hn2 sf (List.mem_cons_self _ _) (takeCat_subset n hn)
    rw [phase1Cats, phase1CatsAll,
      selectFrom_eq_of_fresh st.data _ _ _ (nodup_takeCat (hnd sf)) hfresh,
      selectAllFrom_eq]
    apply ih (List.nodup_cons.mp hcnd).2
    intro n hn sf2 hsf2
    rcases List.mem_append.mp hn with hn1 | hn1
    · have hn3 : n ∈ st.bySize sf := takeCat_subset n (List.mem_reverse.mp hn1)
      have hne : sf ≠ sf2 := by
        intro h2
        exact (List.nodup_cons.mp hcnd).1 (h2 ▸ hsf2)
      exact hdisj sf sf2 hne n hn3
    · exact hsel n hn1 sf2 (List.mem_cons_of_mem _ hsf2)

theorem mem_selectFrom_pairs (d : List (String × SubredditScore)) :
    ∀ (ns sel : List String) (fl : List (String × ℚ)) (p : String × ℚ),
    p ∈ (selectFrom d ns (sel, fl)).2 → p ∈ fl ∨ (p.1 ∈ ns ∧ p.2 = scoreOf d p.1) := by
  intro ns
  induction ns with
  | nil =>
    intro sel fl p hp
    exact Or.inl hp
  | cons n rest ih =>
    intro sel fl p hp
    rw [selectFrom] at hp
    by_cases hmem : n ∈ sel
    · rw [if_pos hmem] at hp
      rcases ih sel fl p hp with h1 | ⟨h1, h2⟩
      · exact Or.inl h1
      · exact Or.inr ⟨List.mem_cons_of_mem _ h1, h2⟩
    · rw [if_neg hmem] at hp
      rcases ih _ _ p hp with h1 | ⟨h1, h2⟩
      · rcases List.mem_append.mp h1 with h2 | h2
        · exact Or.inl h2
        · rcases List.mem_singleton.mp h2 with rfl
          exact Or.inr ⟨List.mem_cons_self _ _, rfl⟩
      · exact Or.inr ⟨List.mem_cons_of_mem _ h1, h2⟩

theorem mem_phase1Cats_pairs (st : AggState) :
    ∀ (cats sel : List String) (fl : List (String × ℚ)) (p : String × ℚ),
    p ∈ (phase1Cats st cats (sel, fl)).2 →
      p ∈ fl ∨ ∃ sf ∈ cats, p.1 ∈ takeCat st sf ∧ p.2 = scoreOf st.data p.1 := by
  intro cats
  induction cats with
  | nil =>
    intro sel fl p hp
    exact Or.inl hp
  | cons sf rest ih =>
    intro sel fl p hp
    rw [phase1Cats] at hp
    rcases hacc : selectFrom st.data (takeCat st sf) (sel, fl) with ⟨sel2, fl2⟩
    rw [hacc] at hp
    rcases ih sel2 fl2 p hp with h1 | ⟨sf2, hsf2, h2, h3⟩
    · have h4 : p ∈ (selectFrom st.data (takeCat st sf) (sel, fl)).2 := by
        rw [hacc]
        exact h1
      rcases mem_selectFrom_pairs st.data _ _ _ p h4 with h5 | ⟨h5, h6⟩
      · exact Or.inl h5
      · exact Or.inr ⟨sf, List.mem_cons_self _ _, h5, h6⟩
    · exact Or.inr ⟨sf2, List.mem_cons_of_mem _ hsf2, h2, h3⟩

theorem selectFrom_inv (d : List (String × SubredditScore)) :
    ∀ (ns sel : List String) (fl : List (String × ℚ)),
    (fl.map Prod.fst).Nodup → (∀ m ∈ fl.map Prod.fst, m ∈ sel) →
    ((selectFrom d ns (sel, fl)).2.map Prod.fst).Nodup ∧
      (∀ m ∈ (selectFrom d ns (sel, fl)).2.map Prod.fst, m ∈ (selectFrom d ns (sel, fl)).1) := by
  intro ns
  induction ns with
  | nil =>
    intro sel fl h1 h2
    exact ⟨h1, h2⟩
  | cons n rest ih =>
    intro sel fl h1 h2
    rw [selectFrom]
    by_cases hmem : n ∈ sel
    · rw [if_pos hmem]
      exact ih sel fl h1 h2
    · rw [if_neg hmem]
      apply ih
      · simp only [List.map_append, List.map_cons, List.map_nil]
        rw [List.nodup_append]
        refine ⟨h1, List.nodup_singleton _, ?_⟩
        intro a ha
        simp only [List.mem_singleton]
        intro h3
        exact hmem (h3 ▸ h2 a ha)
      · intro m hm
        simp only [List.map_append, List.map_cons, List.map_nil] at hm
        rcases List.mem_append.mp hm with hm1 | hm1
        · exact List.mem_cons_of_mem _ (h2 m hm1)
        · rcases List.mem_singleton.mp hm1 with rfl
          exact List.mem_cons_self _ _

theorem phase1Cats_inv (st : AggState) :
    ∀ (cats sel : List String) (fl : List (String × ℚ)),
    (fl.map Prod.fst).Nodup → (∀ m ∈ fl.map Prod.fst, m ∈ sel) →
    ((phase1Cats st cats (sel, fl)).2.map Prod.fst).Nodup ∧
      (∀ m ∈ (phase1Cats st cats (sel, fl)).2.map Prod.fst,
        m ∈ (phase1Cats st cats (sel, fl)).1) := by
  intro cats
  induction cats with
  | nil =>
    intro sel fl h1 h2
    exact ⟨h1, h2⟩
  | cons sf rest ih =>
    intro sel fl h1 h2
    rw [phase1Cats]
    rcases hacc : selectFrom st.data (takeCat st sf) (sel, fl) with ⟨sel2, fl2⟩
    have h3 := selectFrom_inv st.data (takeCat st sf) sel fl h1 h2
    rw [hacc] at h3
    exact ih sel2 fl2 h3.1 h3.2

theorem selectFrom_len (d : List (String × SubredditScore)) :
    ∀ (ns sel : List String) (fl : List (String × ℚ)),
    (selectFrom d ns (sel, fl)).2.length ≤ fl.length + ns.length := by
  intro ns
  induction ns with
  | nil =>
    intro sel fl
    simp [selectFrom]
  | cons n rest ih =>
    intro sel fl
    rw [selectFrom]
    by_cases hmem : n ∈ sel
    · rw [if_pos hmem]
      have := ih sel fl
      simp only [List.length_cons]
      omega
    · rw [if_neg hmem]
      have := ih (n :: sel) (fl ++ [(n, scoreOf d n)])
      simp only [List.length_append, List.length_cons, List.length_nil] at this ⊢
      omega

theorem phase1Cats_len (st : AggState) :
    ∀ (cats sel : List String) (fl : List (String × ℚ)),
    (phase1Cats st cats (sel, fl)).2.length ≤
      fl.length + TOP_PER_SIZE_CATEGORY * cats.length := by
  intro cats
  induction cats with
  | nil =>
    intro sel fl
    simp [phase1Cats]
  | cons sf rest ih =>
    intro sel fl
    rw [phase1Cats]
    rcases hacc : selectFrom st.data (takeCat st sf) (sel, fl) with ⟨sel2, fl2⟩
    have h1 := ih sel2 fl2
    have h2 : fl2.length ≤ fl.length + TOP_PER_SIZE_CATEGORY := by
      have h3 := selectFrom_len st.data (takeCat st sf) sel fl
      rw [hacc] at h3
      have h4 : (takeCat st sf).length ≤ TOP_PER_SIZE_CATEGORY := by
        rw [takeCat, List.length_take]
        omega
      simp only [] at h3
      omega
    simp only [List.length_cons] at h1 ⊢
    have h5 : TOP_PER_SIZE_CATEGORY * (rest.length + 1) =
        TOP_PER_SIZE_CATEGORY * rest.length + TOP_PER_SIZE_CATEGORY := Nat.mul_succ _ _
    omega

/-! ## Selector lemmas: phase 2 and the final list -/

theorem mem_fillLoop :
    ∀ (rest : List SubredditScore) (sel : List String) (fl : List (String × ℚ))
      (p : String × ℚ), p ∈ fillLoop rest sel fl →
      p ∈ fl ∨ ∃ e, e ∈ rest ∧ p = (e.name, e.composite_score) := by
  intro rest
  induction rest with
  | nil =>
    intro sel fl p hp
    exact Or.inl hp
  | cons e rest ih =>
    intro sel fl p hp
    rw [fillLoop] at hp
    by_cases hmem : e.name ∈ sel
    · rw [if_pos hmem] at hp
      rcases ih sel fl p hp with h1 | ⟨e2, h1, h2⟩
      · exact Or.inl h1
      · exact Or.inr ⟨e2, List.mem_cons_of_mem _ h1, h2⟩
    · rw [if_neg hmem] at hp
      by_cases hlen : FINAL_OUTPUT_LIMIT ≤ (fl ++ [(e.name, e.composite_score)]).length
      · rw [if_pos hlen] at hp
        rcases List.mem_append.mp hp with h1 | h1
        · exact Or.inl h1
        · rcases List.mem_singleton.mp h1 with rfl
          exact Or.inr ⟨e, List.mem_cons_self _ _, rfl⟩
      · rw [if_neg hlen] at hp
        rcases ih _ _ p hp with h1 | ⟨e2, h1, h2⟩
        · rcases List.mem_append.mp h1 with h2 | h2
          · exact Or.inl h2
          · rcases List.mem_singleton.mp h2 with rfl
            exact Or.inr ⟨e, List.mem_cons_self _ _, rfl⟩
        · exact Or.inr ⟨e2, List.mem_cons_of_mem _ h1, h2⟩

theorem fillLoop_isPrefixAppend :
    ∀ (rest : List SubredditScore) (sel : List String) (fl : List (String × ℚ)),
    ∃ l, fillLoop rest sel fl = fl ++ l := by
  intro rest
  induction rest with
  | nil =>
    intro sel fl
    exact ⟨[], by simp [fillLoop]⟩
  | cons e rest ih =>
    intro sel fl
    rw [fillLoop]
    by_cases hmem : e.name ∈ sel
    · rw [if_pos hmem]
      exact ih sel fl
    · rw [if_neg hmem]
      by_cases hlen : FINAL_OUTPUT_LIMIT ≤ (fl ++ [(e.name, e.composite_score)]).length
      · rw [if_pos hlen]
        exact ⟨[(e.name, e.composite_score)], rfl⟩
      · rw [if_neg hlen]
        rcases ih (e.name :: sel) (fl ++ [(e.name, e.composite_score)]) with ⟨l, hl⟩
        exact ⟨[(e.name, e.composite_score)] ++ l, by rw [hl, List.append_assoc]⟩

theorem fillLoop_nodup :
    ∀ (rest : List SubredditScore) (sel : List String) (fl : List (String × ℚ)),
    (fl.map Prod.fst).Nodup → (∀ m ∈ fl.map Prod.fst, m ∈ sel) →
    ((fillLoop rest sel fl).map Prod.fst).Nodup := by
  intro rest
  induction rest with
  | nil =>
    intro sel fl h1 _
    exact h1
  | cons e rest ih =>
    intro sel fl h1 h2
    rw [fillLoop]
    have hstep : ((fl ++ [(e.name, e.composite_score)]).map Prod.fst).Nodup ∨
        e.name ∈ sel := by
      by_cases hmem : e.name ∈ sel
      · exact Or.inr hmem
      · left
        simp only [List.map_append, List.map_cons, List.map_nil]
        rw [List.nodup_append]
        refine ⟨h1, List.nodup_singleton _, ?_⟩
        intro a ha
        simp only [List.mem_singleton]
        intro h3
        exact hmem (h3 ▸ h2 a ha)
    by_cases hmem : e.name ∈ sel
    · rw [if_pos hmem]
      exact ih sel fl h1 h2
    · rw [if_neg hmem]
      have hnd2 : ((fl ++ [(e.name, e.composite_score)]).map Prod.fst).Nodup := by
        rcases hstep with h3 | h3
        · exact h3
        · exact absurd h3 hmem
      by_cases hlen : FINAL_OUTPUT_LIMIT ≤ (fl ++ [(e.name, e.composite_score)]).length
      · rw [if_pos hlen]
        exact hnd2
      · rw [if_neg hlen]
        apply ih _ _ hnd2
        intro m hm
        simp only [List.map_append, List.map_cons, List.map_nil] at hm
        rcases List.mem_append.mp hm with hm1 | hm1
        · exact List.mem_cons_of_mem _ (h2 m hm1)
        · rcases List.mem_singleton.mp hm1 with rfl
          exact List.mem_cons_self _ _

theorem fillLoop_length_le :
    ∀ (rest : List SubredditScore) (sel : List String) (fl : List (String × ℚ)),
    fl.length < FINAL_OUTPUT_LIMIT → (fillLoop rest sel fl).length ≤ FINAL_OUTPUT_LIMIT := by
  intro rest
  induction rest with
  | nil =>
    intro sel fl h
    rw [fillLoop]
    omega
  | cons e rest ih =>
    intro sel fl h
    rw [fillLoop]
    by_cases hmem : e.name ∈ sel
    · rw [if_pos hmem]
      exact ih sel fl h
    · rw [if_neg hmem]
      by_cases hlen : FINAL_OUTPUT_LIMIT ≤ (fl ++ [(e.name, e.composite_score)]).length
      · rw [if_pos hlen]
        simp only [List.length_append, List.length_cons, List.length_nil]
        omega
      · rw [if_neg hlen]
        exact ih _ _ (by omega)

/-! ## The final pair list: validity, distinctness, size -/

theorem scoreOf_eq_of_findEntry {d : List (String × SubredditScore)} {n : String}
    {e : SubredditScore} (he : findEntry d n = some e) : scoreOf d n = e.composite_score := by
  rw [scoreOf, he]

theorem mem_values_findEntry {st : AggState} (h : AggInv st) {e : SubredditScore}
    (he : e ∈ st.data.map Prod.snd) : findEntry st.data e.name = some e := by
  rcases List.mem_map.mp he with ⟨q, hq, rfl⟩
  have h2 : q.2.name = q.1 := h.nameEq q hq
  rw [h2]
  exact findEntry_of_mem_nodup h.nodupKeys (by rw [show (q.1, q.2) = q from rfl]; exact hq)

theorem finalPairs_valid (fetch : Fetcher) :
    ∀ p ∈ finalPairs fetch, ∃ e,
      findEntry (scoredState fetch).data p.1 = some e ∧ p.2 = e.composite_score := by
  have hinv := aggInv_scoredState fetch
  have hphase : ∀ p ∈ (phase1 (scoredState fetch)).2, ∃ e,
      findEntry (scoredState fetch).data p.1 = some e ∧ p.2 = e.composite_score := by
    intro p hp
    rcases mem_phase1Cats_pairs (scoredState fetch) SIZE_FILTERS [] [] p hp with
      h1 | ⟨sf, _, h2, h3⟩
    · simp at h1
    · have h4 : p.1 ∈ (scoredState fetch).bySize sf := takeCat_subset p.1 h2
      rcases (hinv.bySizeMem sf p.1).mp h4 with ⟨e, he, _⟩
      exact ⟨e, he, by rw [h3, scoreOf_eq_of_findEntry he]⟩
  intro p hp
  rw [finalPairs] at hp
  by_cases hlen : (phase1 (scoredState fetch)).2.length < FINAL_OUTPUT_LIMIT
  · rw [if_pos hlen] at hp
    rcases mem_fillLoop _ _ _ p hp with h1 | ⟨e, h1, rfl⟩
    · exact hphase p h1
    · have h2 : e ∈ (scoredState fetch).data.map Prod.snd := List.mem_mergeSort.mp h1
      exact ⟨e, mem_values_findEntry hinv h2, rfl⟩
  · rw [if_neg hlen] at hp
    exact hphase p hp

theorem finalPairs_score (fetch : Fetcher) :
    ∀ p ∈ finalPairs fetch, p.2 = scoreOf (scoredState fetch).data p.1 := by
  intro p hp
  rcases finalPairs_valid fetch p hp with ⟨e, he, h2⟩
  rw [h2, scoreOf_eq_of_findEntry he]

theorem finalPairs_names_nodup (fetch : Fetcher) :
    ((finalPairs fetch).map Prod.fst).Nodup := by
  have h1 := phase1Cats_inv (scoredState fetch) SIZE_FILTERS [] []
    (by simp) (by simp)
  rw [finalPairs]
  by_cases hlen : (phase1 (scoredState fetch)).2.length < FINAL_OUTPUT_LIMIT
  · rw [if_pos hlen]
    rcases hp : phase1 (scoredState fetch) with ⟨sel1, fl1⟩
    rw [phase1] at hp
    rw [hp] at h1
    exact fillLoop_nodup _ _ _ h1.1 h1.2
  · rw [if_neg hlen]
    exact h1.1

theorem finalPairs_length_le (fetch : Fetcher) :
    (finalPairs fetch).length ≤ FINAL_OUTPUT_LIMIT := by
  have h1 := phase1Cats_len (scoredState fetch) SIZE_FILTERS [] []
  have h2 : TOP_PER_SIZE_CATEGORY * SIZE_FILTERS.length ≤ 20 := by
    rw [TOP_PER_SIZE_CATEGORY, SIZE_FILTERS]
    simp
  rw [finalPairs]
  by_cases hlen : (phase1 (scoredState fetch)).2.length < FINAL_OUTPUT_LIMIT
  · rw [if_pos hlen]
    exact fillLoop_length_le _ _ _ hlen
  · rw [if_neg hlen]
    rw [phase1] at hlen ⊢
    simp only [List.length_nil] at h1
    rw [FINAL_OUTPUT_LIMIT] at hlen ⊢
    omega

/-- C4: the returned list is sorted non-increasingly by composite score:
for every adjacent pair (a, b), score(a) ≥ score(b), whichever phase
contributed each entry. -/
theorem C4_output_sorted_by_score (fetch : Fetcher) :
    (generate_blended_trending fetch).Chain' (fun a b =>
      scoreOf (scoredState fetch).data b ≤ scoreOf (scoredState fetch).data a) := by
  apply List.Pairwise.chain'
  rw [generate_blended_trending, List.pairwise_map]
  have hsorted := @List.sorted_mergeSort (String × ℚ)
    (fun a b : String × ℚ => decide (b.2 ≤ a.2))
    (fun a b c h1 h2 => by
      simp only [decide_eq_true_eq] at h1 h2 ⊢
      exact le_trans h2 h1)
    (fun a b => by
      simp only [Bool.or_eq_true, decide_eq_true_eq]
      exact le_total b.2 a.2)
    (finalPairs fetch)
  apply hsorted.imp_of_mem
  intro p q hp hq h1
  have hp2 := finalPairs_score fetch p (List.mem_mergeSort.mp hp)
  have hq2 := finalPairs_score fetch q (List.mem_mergeSort.mp hq)
  simp only [decide_eq_true_eq] at h1
  rw [← hp2, ← hq2]
  exact h1

theorem nodup_subset_dedup_length {l m : List String} (hnd : l.Nodup)
    (hsub : ∀ x ∈ l, x ∈ m) : l.length ≤ m.dedup.length := by
  have h1 : l.toFinset.card = l.length := List.toFinset_card_of_nodup hnd
  have h2 : l.toFinset ⊆ m.toFinset := by
    intro x hx
    rw [List.mem_toFinset] at hx ⊢
    exact hsub x hx
  have h3 := Finset.card_le_card h2
  rw [h1, List.card_toFinset] at h3
  exact h3

theorem mem_output_mem_qualifying (fetch : Fetcher) :
    ∀ n ∈ generate_blended_trending fetch, n ∈ qualifyingNames fetch := by
  intro n hn
  rw [generate_blended_trending] at hn
  rcases List.mem_map.mp hn with ⟨p, hp, rfl⟩
  have hp2 : p ∈ finalPairs fetch := List.mem_mergeSort.mp hp
  rcases finalPairs_valid fetch p hp2 with ⟨e, he, _⟩
  rw [show (scoredState fetch).data = scoreAll (runQueries fetch).data from rfl,
    findEntry_scoreAll] at he
  rcases hraw : findEntry (runQueries fetch).data p.1 with _ | e2
  · rw [hraw] at he
    exact Option.noConfusion he
  · have happ : 1 ≤ e2.appearances :=
      (aggInv_runQueries fetch).appPos _ (findEntry_some_mem hraw)
    have hcount := C8_appearances_count_raw_sightings hraw
    have h3 : 0 < (qualifyingNames fetch).count p.1 := by omega
    exact List.count_pos_iff_mem.mp h3

/-- C5: the output has no repeated name, at most `FINAL_OUTPUT_LIMIT`
(30) entries, and no more entries than there are distinct qualifying
(non-empty-name, non-NSFW) subreddit names observed across all successful
queries. -/
theorem C5_output_size_bounds (fetch : Fetcher) :
    (generate_blended_trending fetch).Nodup ∧
    (generate_blended_trending fetch).length ≤ FINAL_OUTPUT_LIMIT ∧
    (generate_blended_trending fetch).length ≤ ((qualifyingNames fetch).dedup).length := by
  have hnd : (generate_blended_trending fetch).Nodup := by
    rw [generate_blended_trending]
    have hperm : List.Perm
        (((finalPairs fetch).mergeSort (fun a b => decide (b.2 ≤ a.2))).map Prod.fst)
        ((finalPairs fetch).map Prod.fst) :=
      (List.mergeSort_perm (finalPairs fetch) _).map Prod.fst
    exact hperm.nodup_iff.mpr (finalPairs_names_nodup fetch)
  refine ⟨hnd, ?_, ?_⟩
  · rw [generate_blended_trending, List.length_map, List.length_mergeSort]
    exact finalPairs_length_le fetch
  · exact nodup_subset_dedup_length hnd (mem_output_mem_qualifying fetch)

/-! ## Category lists: disjointness and the phase-1 guarantee -/

theorem bySize_disjoint {st : AggState} (h : AggInv st) :
    ∀ sf sf2, sf ≠ sf2 → ∀ n, n ∈ st.bySize sf → n ∉ st.bySize sf2 := by
  intro sf sf2 hne n h1 h2
  rcases (h.bySizeMem sf n).mp h1 with ⟨e, he, hs⟩
  rcases (h.bySizeMem sf2 n).mp h2 with ⟨e2, he2, hs2⟩
  rw [he] at he2
  cases he2
  exact hne (hs ▸ hs2)

theorem takeCat_length (st : AggState) (sf : String) :
    (takeCat st sf).length = min TOP_PER_SIZE_CATEGORY (st.bySize sf).length := by
  rw [takeCat, List.length_take, catSorted, List.length_mergeSort]

theorem phase1_eq_phase1All (st : AggState) (h : AggInv st) :
    phase1 st = phase1All st := by
  rw [phase1, phase1All]
  apply phase1Cats_eq_all st h.bySizeNodup (bySize_disjoint h) SIZE_FILTERS (by decide)
  intro n hn
  simp at hn

/-- C10: throughout the run the size-category lists are duplicate-free and
pairwise disjoint, so phase 1's `name not in selected` guard never
excludes anything (the guarded phase 1 equals the guard-free one) and
phase 1 emits exactly `min 5 (category length)` names per category. -/
theorem C10_phase1_guard_vacuous (fetch : Fetcher) :
    (∀ sf, ((scoredState fetch).bySize sf).Nodup) ∧
    (∀ sf sf2, sf ≠ sf2 → ∀ n, n ∈ (scoredState fetch).bySize sf →
      n ∉ (scoredState fetch).bySize sf2) ∧
    phase1 (scoredState fetch) = phase1All (scoredState fetch) ∧
    (phase1 (scoredState fetch)).2.length =
      (SIZE_FILTERS.map (fun sf =>
        min TOP_PER_SIZE_CATEGORY (((scoredState fetch).bySize sf)).length)).sum := by
  have hinv := aggInv_scoredState fetch
  refine ⟨hinv.bySizeNodup, bySize_disjoint hinv, phase1_eq_phase1All _ hinv, ?_⟩
  rw [phase1_eq_phase1All _ hinv, phase1All, phase1CatsAll_pairs]
  simp only [List.nil_append, List.length_flatMap]
  have hfun : (List.length ∘ fun sf =>
      List.map (fun n => (n, scoreOf (scoredState fetch).data n))
        (takeCat (scoredState fetch) sf)) =
      fun sf => min TOP_PER_SIZE_CATEGORY (((scoredState fetch).bySize sf)).length := by
    funext sf
    simp [Function.comp, takeCat_length]
  rw [hfun]

/-! ## C3: the diversity guarantee -/

theorem countCat_eq_countP (d : List (String × SubredditScore)) (sf : String)
    (names : List String) :
    countCat d sf names = names.countP (fun n =>
      match findEntry d n with
      | some e => decide (e.size_filter = sf)
      | none => false) := by
  rw [countCat, List.countP_eq_length_filter]

theorem countCat_output_ge (fetch : Fetcher) (sf : String) (hsf : sf ∈ SIZE_FILTERS) :
    min TOP_PER_SIZE_CATEGORY (((scoredState fetch).bySize sf)).length ≤
      countCat (scoredState fetch).data sf (generate_blended_trending fetch) := by
  have hinv := aggInv_scoredState fetch
  set st := scoredState fetch with hst
  set pred : String → Bool := fun n =>
    match findEntry st.data n with
    | some e => decide (e.size_filter = sf)
    | none => false with hpred
  -- the output is a permutation of the names of the selected pairs
  have hperm : List.Perm (generate_blended_trending fetch) ((finalPairs fetch).map Prod.fst) := by
    rw [generate_blended_trending]
    exact (List.mergeSort_perm (finalPairs fetch) _).map Prod.fst
  rw [countCat_eq_countP, hperm.countP_eq]
  -- phase 1's names are the concatenation of the per-category blocks
  have hnames : (phase1 st).2.map Prod.fst = SIZE_FILTERS.flatMap (fun sf2 => takeCat st sf2) := by
    rw [phase1_eq_phase1All _ hinv, phase1All, phase1CatsAll_pairs]
    have hcomp : ∀ sf2, List.map (Prod.fst ∘ fun n => (n, scoreOf st.data n))
        (takeCat st sf2) = takeCat st sf2 := by
      intro sf2
      rw [show (Prod.fst ∘ fun n : String => (n, scoreOf st.data n)) =
        fun n : String => n from rfl, List.map_id']
    simp [List.map_flatMap, List.map_map, hcomp]
  -- this category's block is a sublist of the final name list
  have hsub : List.Sublist (takeCat st sf) ((finalPairs fetch).map Prod.fst) := by
    have hsplit : ∃ l, finalPairs fetch = (phase1 st).2 ++ l := by
      rw [finalPairs]
      by_cases hlen : (phase1 (scoredState fetch)).2.length < FINAL_OUTPUT_LIMIT
      · rw [if_pos hlen]
        exact fillLoop_isPrefixAppend _ _ _
      · rw [if_neg hlen]
        exact ⟨[], by simp⟩
    rcases hsplit with ⟨l, hl⟩
    rcases List.append_of_mem hsf with ⟨s1, s2, hcats⟩
    have h1 : List.Sublist (takeCat st sf) ((phase1 st).2.map Prod.fst) := by
      rw [hnames, hcats, List.flatMap_append, List.flatMap_cons]
      exact ((List.sublist_append_left _ _).trans (List.sublist_append_right _ _))
    rw [hl, List.map_append]
    exact h1.trans (List.sublist_append_left _ _)
  -- every name in the block satisfies the predicate
  have hblock : List.countP pred (takeCat st sf) = (takeCat st sf).length := by
    rw [List.countP_eq_length]
    intro n hn
    rcases (hinv.bySizeMem sf n).mp (takeCat_subset n hn) with ⟨e, he, hs⟩
    rw [hpred]
    simp [he, hs]
  calc min TOP_PER_SIZE_CATEGORY ((st.bySize sf)).length
      = List.countP pred (takeCat st sf) := by rw [hblock, takeCat_length]
    _ ≤ List.countP pred ((finalPairs fetch).map Prod.fst) := hsub.countP_le pred

/-- C3: when every size category saw at least `TOP_PER_SIZE_CATEGORY` (5)
distinct qualifying subreddits, the final output contains at least 5
names whose recorded `size_filter` is that category, for each of the four
categories (5 = min(5, category size) under the hypothesis). -/
theorem C3_diversity_guarantee (fetch : Fetcher)
    (h : ∀ sf ∈ SIZE_FILTERS,
      TOP_PER_SIZE_CATEGORY ≤ ((runQueries fetch).bySize sf).length) :
    TOP_PER_SIZE_CATEGORY ≤ countCat (scoredState fetch).data "medium-small"
        (generate_blended_trending fetch) ∧
    TOP_PER_SIZE_CATEGORY ≤ countCat (scoredState fetch).data "medium"
        (generate_blended_trending fetch) ∧
    TOP_PER_SIZE_CATEGORY ≤ countCat (scoredState fetch).data "large"
        (generate_blended_trending fetch) ∧
    TOP_PER_SIZE_CATEGORY ≤ countCat (scoredState fetch).data "xlarge"
        (generate_blended_trending fetch) := by
  have hby : (scoredState fetch).bySize = (runQueries fetch).bySize := rfl
  have hone : ∀ sf ∈ SIZE_FILTERS, TOP_PER_SIZE_CATEGORY ≤
      countCat (scoredState fetch).data sf (generate_blended_trending fetch) := by
    intro sf hsf
    have h1 := countCat_output_ge fetch sf hsf
    have h2 := h sf hsf
    rw [hby] at h1
    have h3 : min TOP_PER_SIZE_CATEGORY (((runQueries fetch).bySize sf)).length =
        TOP_PER_SIZE_CATEGORY := by omega
    rw [h3] at h1
    exact h1
  exact ⟨hone _ (by decide), hone _ (by decide), hone _ (by decide), hone _ (by decide)⟩

/-- C3 witness: a fetcher giving each category five distinct qualifying
subreddits; the final output indeed has five names recorded under each
category. -/
theorem C3_diversity_guarantee_witness :
    TOP_PER_SIZE_CATEGORY ≤ countCat (scoredState exFullFetcher).data "medium-small"
        (generate_blended_trending exFullFetcher) ∧
    TOP_PER_SIZE_CATEGORY ≤ countCat (scoredState exFullFetcher).data "medium"
        (generate_blended_trending exFullFetcher) ∧
    TOP_PER_SIZE_CATEGORY ≤ countCat (scoredState exFullFetcher).data "large"
        (generate_blended_trending exFullFetcher) ∧
    TOP_PER_SIZE_CATEGORY ≤ countCat (scoredState exFullFetcher).data "xlarge"
        (generate_blended_trending exFullFetcher) :=
  C3_diversity_guarantee exFullFetcher (by with_unfolding_all decide)

/-! ## C1: what the `except Exception` boundary actually catches -/

theorem foldl_runQuery_congr {fetch fetch2 : Fetcher}
    (h : ∀ st q, runQuery fetch st q = runQuery fetch2 st q) :
    ∀ (qs : List (String × String)) (st : AggState),
    qs.foldl (runQuery fetch) st = qs.foldl (runQuery fetch2) st := by
  intro qs
  induction qs with
  | nil =>
    intro st
    rfl
  | cons q qs ih =>
    intro st
    rw [List.foldl_cons, List.foldl_cons, h st q, ih]

theorem runQueries_errorsToEmpty (fetch : Fetcher) :
    runQueries fetch = runQueries (errorsToEmpty fetch) := by
  rw [runQueries, runQueries]
  apply foldl_runQuery_congr
  intro st q
  rw [runQuery, runQuery, errorsToEmpty]
  rcases fetch q.1 q.2 with e | results
  · rfl
  · rfl

/-- C1 (amended): EVERY error raised inside a fetch operation — a
network/HTTP failure or anything else, such as a JSON parsing error — is
caught by the query loop's `except Exception` and treated as "no results
for this query"; no fetch-time error aborts the run.  Replacing each
failed query by a successful empty page gives the identical output. -/
theorem C1_all_fetch_errors_degrade (fetch : Fetcher) :
    generate_blended_trending fetch = generate_blended_trending (errorsToEmpty fetch) := by
  have h := runQueries_errorsToEmpty fetch
  simp only [generate_blended_trending, finalPairs, scoredState, h]

/-- C1 counterexample to the claim as stated: under a fetcher whose
("medium", "weekly") query raises a JSON parsing error, the spec-modelled
run (which catches only network/HTTP failures) aborts with that error,
but the script's run completes normally, returns ["a"], and equals the
run in which the failing query simply returned no results. -/
theorem C1_json_error_not_propagated :
    generate_blended_trending_specHttpOnly exJsonFetcher = .error FetchError.jsonError ∧
    generate_blended_trending exJsonFetcher = ["a"] ∧
    generate_blended_trending exJsonFetcher =
      generate_blended_trending (errorsToEmpty exJsonFetcher) := by
  refine ⟨by with_unfolding_all rfl, by with_unfolding_all decide,
    C1_all_fetch_errors_degrade exJsonFetcher⟩
